import Mathlib

/-!
Verification of the bugwatch sighting engine (src/src/app/page.tsx).

Strings are modelled as lists of characters (`List Char`).  The JavaScript
regular expression `@<([^>]+)>` used by `extractLocation` is embedded as a
left-to-right scanner: at each position the engine matches the literal `@<`,
then a maximal nonempty run of characters other than `>`, then `>`; the
first position where this succeeds yields the capture.
-/

namespace Bugwatch

/-- JavaScript `String.prototype.trim`: drop leading and trailing whitespace. -/
def trim (s : List Char) : List Char :=
  ((s.dropWhile Char.isWhitespace).reverse.dropWhile Char.isWhitespace).reverse

/-- Characters of the capture group `[^>]+` read greedily from `l`: the run of
characters before the first `>` (`some` only when a closing `>` exists). -/
def takeCapture : List Char → Option (List Char)
  | [] => none
  | c :: cs => if c = '>' then some [] else (takeCapture cs).map (fun cap => c :: cap)

/-- Attempt of the regex `@<([^>]+)>` anchored at the start of `l`: succeeds
with the (nonempty) capture when `l` begins with `@<`, then at least one
character other than `>`, then a closing `>`. -/
def tagAt (l : List Char) : Option (List Char) :=
  match l with
  | a :: b :: rest =>
    if a = '@' ∧ b = '<' then
      match takeCapture rest with
      | some cap => if cap = [] then none else some cap
      | none => none
    else none
  | _ => none

/-- Unanchored regex search, as JavaScript `text.match(/@<([^>]+)>/)`: try each
start position from the left, return the first capture. -/
def findTag : List Char → Option (List Char)
  | [] => none
  | c :: cs =>
    match tagAt (c :: cs) with
    | some v => some v
    | none => findTag cs

/-- The sentinel location label. -/
def unspecified : List Char := "Unspecified".data

/-- Embedding of `extractLocation` (page.tsx lines 52-58): first regex capture
trimmed, sentinel when there is no match.  The source also tests `match[1]`
for truthiness, which is redundant because the capture of `[^>]+` is nonempty. -/
def extractLocation (text : List Char) : List Char :=
  match findTag text with
  | some cap => trim cap
  | none => unspecified

/-- The proposition that `t` contains, starting after the prefix `pre`, an
occurrence of the substring `@<X>` in which `X` has no `>` character. -/
def isTagAt (t pre X suf : List Char) : Prop :=
  t = pre ++ '@' :: '<' :: (X ++ '>' :: suf) ∧ '>' ∉ X

/-- A sighting record (page.tsx lines 5-11).  The `id`, `description`,
`location` and `imageUrl` fields are strings (lists of characters);
`createdAt` is a millisecond timestamp. -/
structure Sighting where
  id : List Char
  description : List Char
  location : List Char
  imageUrl : List Char
  createdAt : Int
deriving Repr, DecidableEq

/-- JavaScript `Map.set` on an insertion-ordered association list: when the key
is already bound the value is replaced in place, otherwise the binding is
appended at the end, exactly the iteration-order contract of a JS `Map`. -/
def mapSet : List (List Char × Nat) → List Char → Nat → List (List Char × Nat)
  | [], k, v => [(k, v)]
  | (k0, v0) :: rest, k, v =>
    if k0 = k then (k, v) :: rest else (k0, v0) :: mapSet rest k v

/-- JavaScript `Map.get`: the value bound to the key, if any. -/
def mapGet : List (List Char × Nat) → List Char → Option Nat
  | [], _ => none
  | (k0, v0) :: rest, k => if k0 = k then some v0 else mapGet rest k

/-- The counting loop of the `distribution` memo (page.tsx lines 77-80):
`counts.set(s.location, (counts.get(s.location) ?? 0) + 1)` folded over the
sightings, starting from the empty map. -/
def tally (ss : List Sighting) : List (List Char × Nat) :=
  ss.foldl (fun m s => mapSet m s.location ((mapGet m s.location).getD 0 + 1)) []

/-- Code-point lexicographic order on strings; the model of the
`a.location.localeCompare(b.location)` tie-breaker of line 82. -/
def lexLe : List Char → List Char → Bool
  | [], _ => true
  | _ :: _, [] => false
  | a :: l1, b :: l2 => if a = b then lexLe l1 l2 else decide (a < b)

/-- The sort comparator of line 82, `b.count - a.count || localeCompare`:
entry `a` sorts no later than `b` when `a` has the strictly larger count, or
the counts are equal and the label of `a` is lexicographically no larger. -/
def entryLe (a b : List Char × Nat) : Bool :=
  if a.2 = b.2 then lexLe a.1 b.1 else decide (b.2 < a.2)

/-- Embedding of the `distribution` aggregator (page.tsx lines 76-84): one
`(location, count)` entry per distinct location, in first-insertion order,
then stably sorted by descending count with ascending lexicographic
tie-break.  A pair `(location, count)` stands for a DistributionEntry. -/
def distribution (ss : List Sighting) : List (List Char × Nat) :=
  (tally ss).mergeSort entryLe

/-- The ordering claimed for adjacent entries of the distribution output:
strictly larger count first, equal counts resolved by lexicographic order of
the labels. -/
def rankedLe (a b : List Char × Nat) : Prop :=
  b.2 < a.2 ∨ (a.2 = b.2 ∧ lexLe a.1 b.1 = true)

/-- The three typed validation failures of the submission handler (spec
taxonomy; in the source each is surfaced as a distinct error message set by
`setErrors`). -/
inductive SubmissionError where
  | MissingDescription
  | MissingImage
  | ImageReadError
deriving Repr, DecidableEq

/-- The component state touched by `handleSubmit`: the description text, the
selected file (if any) and the sighting collection.  `F` is the abstract type
of file handles. -/
structure FormState (F : Type) where
  description : List Char
  file : Option F
  sightings : List Sighting
deriving DecidableEq

/-- Embedding of `handleSubmit` (page.tsx lines 89-121).  The asynchronous
`readFile` (FileReader data-URL conversion, lines 37-50) is passed as an
oracle `F → Option (List Char)` with `none` for a rejected read; the fresh
`crypto.randomUUID()` value and the `Date.now()` instant are parameters.
Returns the state after the handler together with the validation error, if
any (`none` models a successful submission). -/
def handleSubmit {F : Type} (readFile : F → Option (List Char))
    (freshId : List Char) (now : Int) (st : FormState F) :
    FormState F × Option SubmissionError :=
  if trim st.description = [] then (st, some SubmissionError.MissingDescription)
  else
    match st.file with
    | none => (st, some SubmissionError.MissingImage)
    | some f =>
      match readFile f with
      | none => (st, some SubmissionError.ImageReadError)
      | some imageUrl =>
        let s : Sighting :=
          { id := freshId, description := st.description,
            location := extractLocation st.description,
            imageUrl := imageUrl, createdAt := now }
        ({ description := [], file := none, sightings := s :: st.sightings },
         none)

/-- JavaScript `Math.round(a / b)` for integers with `b > 0`: the floor of
`a / b + 1 / 2`, computed exactly as `floor((2 * a + b) / (2 * b))`. -/
def jsRound (a b : Int) : Int := Int.fdiv (2 * a + b) (2 * b)

/-- Embedding of `prettyTime` (page.tsx lines 60-68), as a pure function of
the current instant and the timestamp, both in milliseconds. -/
def prettyTime (now timestamp : Int) : String :=
  let diff := now - timestamp
  let minutes := max 1 (jsRound diff 60000)
  if minutes < 60 then toString minutes ++ "m ago"
  else
    let hours := jsRound minutes 60
    if hours < 24 then toString hours ++ "h ago"
    else toString (jsRound hours 24) ++ "d ago"

theorem findTag_cons (c : Char) (cs : List Char) :
    findTag (c :: cs) =
      match tagAt (c :: cs) with
      | some v => some v
      | none => findTag cs := rfl

theorem takeCapture_append (X suf : List Char) (h : '>' ∉ X) :
    takeCapture (X ++ '>' :: suf) = some X := by
  induction X with
  | nil => simp [takeCapture]
  | cons c cs ih =>
    have hc : c ≠ '>' := fun hc => h (by simp [hc])
    have hcs : '>' ∉ cs := fun hm => h (List.mem_cons_of_mem _ hm)
    simp [takeCapture, hc, ih hcs]

theorem takeCapture_some {l cap : List Char} (h : takeCapture l = some cap) :
    ∃ suf, l = cap ++ '>' :: suf ∧ '>' ∉ cap := by
  induction l generalizing cap with
  | nil => simp [takeCapture] at h
  | cons c cs ih =>
    by_cases hc : c = '>'
    · have hcap : cap = [] := by
        simp [takeCapture, hc] at h
        exact h
      exact ⟨cs, by simp [hc, hcap], by simp [hcap]⟩
    · simp [takeCapture, hc] at h
      obtain ⟨cap0, hcap0, hcons⟩ := h
      obtain ⟨suf, hsuf, hnot⟩ := ih hcap0
      refine ⟨suf, ?_, ?_⟩
      · simp [← hcons, hsuf]
      · intro hmem
        rcases List.mem_cons.mp (hcons ▸ hmem) with h1 | h2
        · exact hc h1.symm
        · exact hnot h2

theorem tagAt_of {X suf : List Char} (hX : '>' ∉ X) (hne : X ≠ []) :
    tagAt ('@' :: '<' :: (X ++ '>' :: suf)) = some X := by
  simp [tagAt, takeCapture_append X suf hX, hne]

theorem tagAt_some {t v : List Char} (h : tagAt t = some v) :
    ∃ suf, t = '@' :: '<' :: (v ++ '>' :: suf) ∧ '>' ∉ v ∧ v ≠ [] := by
  match t with
  | [] => simp [tagAt] at h
  | [a] => simp [tagAt] at h
  | a :: b :: rest =>
    by_cases hab : a = '@' ∧ b = '<'
    · simp only [tagAt, if_pos hab] at h
      cases hcap : takeCapture rest with
      | none => simp [hcap] at h
      | some cap =>
        simp [hcap] at h
        obtain ⟨hne, hv⟩ := h
        obtain ⟨suf, hsuf, hnot⟩ := takeCapture_some hcap
        exact ⟨suf, by simp [hab.1, hab.2, hsuf, hv], hv ▸ hnot, hv ▸ hne⟩
    · simp [tagAt, hab] at h

theorem findTag_sound {t v : List Char} (h : findTag t = some v) :
    ∃ pre suf, isTagAt t pre v suf ∧ v ≠ [] := by
  induction t with
  | nil => simp [findTag] at h
  | cons c cs ih =>
    rw [findTag_cons] at h
    cases htag : tagAt (c :: cs) with
    | some w =>
      rw [htag] at h
      obtain ⟨suf, hsuf, hnot, hne⟩ := tagAt_some htag
      cases h
      exact ⟨[], suf, ⟨by simpa using hsuf, hnot⟩, hne⟩
    | none =>
      rw [htag] at h
      obtain ⟨pre, suf, ⟨hdec, hnot⟩, hne⟩ := ih h
      exact ⟨c :: pre, suf, ⟨by simp [hdec], hnot⟩, hne⟩

theorem findTag_first {t pre X suf : List Char}
    (hdec : t = pre ++ '@' :: '<' :: (X ++ '>' :: suf))
    (hnot : '>' ∉ X) (hne : X ≠ [])
    (hmin : ∀ pre2 X2 suf2, isTagAt t pre2 X2 suf2 → X2 ≠ [] →
      pre.length ≤ pre2.length) :
    findTag t = some X := by
  induction pre generalizing t with
  | nil =>
    subst hdec
    rw [List.nil_append, findTag_cons, tagAt_of hnot hne]
  | cons p pre2 ih =>
    subst hdec
    rw [List.cons_append, findTag_cons]
    cases htag : tagAt (p :: (pre2 ++ '@' :: '<' :: (X ++ '>' :: suf))) with
    | some w =>
      obtain ⟨suf2, hsuf2, hnotw, hnew⟩ := tagAt_some htag
      have h0 := hmin [] w suf2 ⟨by simpa using hsuf2, hnotw⟩ hnew
      simp at h0
    | none =>
      refine ih rfl ?_
      intro pre3 X3 suf3 h3 hne3
      have hlift : isTagAt (p :: (pre2 ++ '@' :: '<' :: (X ++ '>' :: suf)))
          (p :: pre3) X3 suf3 := ⟨by simp [h3.1], h3.2⟩
      have := hmin (p :: pre3) X3 suf3 hlift hne3
      simpa using this

theorem mapSet_sum (m : List (List Char × Nat)) (k : List Char) :
    ((mapSet m k ((mapGet m k).getD 0 + 1)).map Prod.snd).sum
      = (m.map Prod.snd).sum + 1 := by
  induction m with
  | nil => simp [mapSet, mapGet]
  | cons p rest ih =>
    obtain ⟨k0, v0⟩ := p
    by_cases hk : k0 = k
    · simp [mapSet, mapGet, hk]
      omega
    · simp [mapSet, mapGet, hk] at ih ⊢
      omega

theorem mem_keys_mapSet (m : List (List Char × Nat)) (k x : List Char) (v : Nat) :
    x ∈ (mapSet m k v).map Prod.fst ↔ x ∈ m.map Prod.fst ∨ x = k := by
  induction m with
  | nil => simp [mapSet]
  | cons p rest ih =>
    obtain ⟨k0, v0⟩ := p
    by_cases hk : k0 = k
    · subst hk
      simp [mapSet]
      tauto
    · simp [mapSet, hk, ih]
      tauto

theorem nodup_keys_mapSet (m : List (List Char × Nat)) (k : List Char) (v : Nat)
    (h : (m.map Prod.fst).Nodup) : ((mapSet m k v).map Prod.fst).Nodup := by
  induction m with
  | nil => simp [mapSet]
  | cons p rest ih =>
    obtain ⟨k0, v0⟩ := p
    simp only [List.map_cons, List.nodup_cons] at h
    by_cases hk : k0 = k
    · subst hk
      simpa [mapSet] using h
    · simp only [mapSet, if_neg hk, List.map_cons, List.nodup_cons]
      refine ⟨?_, ih h.2⟩
      intro hmem
      rcases (mem_keys_mapSet rest k k0 v).1 hmem with h1 | h2
      · exact h.1 h1
      · exact hk h2

theorem tally_foldl_sum (ss : List Sighting) :
    ∀ m : List (List Char × Nat),
      ((ss.foldl
          (fun m s => mapSet m s.location ((mapGet m s.location).getD 0 + 1))
          m).map Prod.snd).sum
        = (m.map Prod.snd).sum + ss.length := by
  induction ss with
  | nil => simp
  | cons s rest ih =>
    intro m
    simp only [List.foldl_cons, List.length_cons]
    rw [ih, mapSet_sum]
    omega

theorem tally_foldl_nodup (ss : List Sighting) :
    ∀ m : List (List Char × Nat), (m.map Prod.fst).Nodup →
      ((ss.foldl
          (fun m s => mapSet m s.location ((mapGet m s.location).getD 0 + 1))
          m).map Prod.fst).Nodup := by
  induction ss with
  | nil => intro m hm; simpa using hm
  | cons s rest ih =>
    intro m hm
    simp only [List.foldl_cons]
    exact ih _ (nodup_keys_mapSet m s.location _ hm)

theorem tally_foldl_mem (ss : List Sighting) :
    ∀ (m : List (List Char × Nat)) (x : List Char),
      (x ∈ (ss.foldl
          (fun m s => mapSet m s.location ((mapGet m s.location).getD 0 + 1))
          m).map Prod.fst
        ↔ x ∈ m.map Prod.fst ∨ x ∈ ss.map Sighting.location) := by
  induction ss with
  | nil => simp
  | cons s rest ih =>
    intro m x
    simp only [List.foldl_cons, List.map_cons, List.mem_cons]
    rw [ih, mem_keys_mapSet]
    tauto

theorem lexLe_total : ∀ a b : List Char, (lexLe a b || lexLe b a) = true := by
  intro a
  induction a with
  | nil => intro b; simp [lexLe]
  | cons c l1 ih =>
    intro b
    cases b with
    | nil => simp [lexLe]
    | cons d l2 =>
      by_cases hcd : c = d
      · subst hcd
        simpa [lexLe] using ih l2
      · have hor : c < d ∨ d < c := by
          rcases lt_trichotomy c d with h | h | h
          · exact Or.inl h
          · exact absurd h hcd
          · exact Or.inr h
        rcases hor with h | h
        · simp [lexLe, hcd, h]
        · simp [lexLe, hcd, Ne.symm hcd, h]

theorem lexLe_trans :
    ∀ a b c : List Char, lexLe a b = true → lexLe b c = true →
      lexLe a c = true := by
  intro a
  induction a with
  | nil => intro b c _ _; simp [lexLe]
  | cons x l1 ih =>
    intro b c h1 h2
    cases b with
    | nil => simp [lexLe] at h1
    | cons y l2 =>
      cases c with
      | nil => simp [lexLe] at h2
      | cons z l3 =>
        by_cases hxy : x = y <;> by_cases hyz : y = z
        · subst hxy; subst hyz
          simp only [lexLe, if_pos rfl] at h1 h2 ⊢
          exact ih l2 l3 h1 h2
        · subst hxy
          simp only [lexLe, if_neg hyz] at h2
          simp only [lexLe, if_neg hyz, h2]
        · subst hyz
          simp only [lexLe, if_neg hxy] at h1
          simp only [lexLe, if_neg hxy, h1]
        · simp only [lexLe, if_neg hxy] at h1
          simp only [lexLe, if_neg hyz] at h2
          have hlt : x < z := lt_trans (of_decide_eq_true h1) (of_decide_eq_true h2)
          have hxz : x ≠ z := ne_of_lt hlt
          simp [lexLe, hxz, hlt]

theorem entryLe_total : ∀ a b : List Char × Nat, (entryLe a b || entryLe b a) = true := by
  intro a b
  by_cases h : a.2 = b.2
  · simpa [entryLe, h] using lexLe_total a.1 b.1
  · rcases Nat.lt_or_ge a.2 b.2 with hlt | hge
    · simp [entryLe, h, Ne.symm h, hlt]
    · have : b.2 < a.2 := lt_of_le_of_ne hge (Ne.symm h)
      simp [entryLe, h, this]

theorem entryLe_trans :
    ∀ a b c : List Char × Nat, entryLe a b = true → entryLe b c = true →
      entryLe a c = true := by
  intro a b c h1 h2
  by_cases hab : a.2 = b.2 <;> by_cases hbc : b.2 = c.2
  · simp only [entryLe, if_pos hab] at h1
    simp only [entryLe, if_pos hbc] at h2
    simp only [entryLe, if_pos (hab.trans hbc)]
    exact lexLe_trans _ _ _ h1 h2
  · simp only [entryLe, if_neg hbc] at h2
    have hcb : c.2 < b.2 := of_decide_eq_true h2
    have hac : a.2 ≠ c.2 := by omega
    simp only [entryLe, if_neg hac]
    exact decide_eq_true (by omega)
  · simp only [entryLe, if_neg hab] at h1
    have hba : b.2 < a.2 := of_decide_eq_true h1
    have hac : a.2 ≠ c.2 := by omega
    simp only [entryLe, if_neg hac]
    exact decide_eq_true (by omega)
  · simp only [entryLe, if_neg hab] at h1
    simp only [entryLe, if_neg hbc] at h2
    have hba : b.2 < a.2 := of_decide_eq_true h1
    have hcb : c.2 < b.2 := of_decide_eq_true h2
    have hac : a.2 ≠ c.2 := by omega
    simp only [entryLe, if_neg hac]
    exact decide_eq_true (by omega)

theorem entryLe_rankedLe {a b : List Char × Nat} (h : entryLe a b = true) :
    rankedLe a b := by
  by_cases hab : a.2 = b.2
  · simp only [entryLe, if_pos hab] at h
    exact Or.inr ⟨hab, h⟩
  · simp only [entryLe, if_neg hab] at h
    exact Or.inl (of_decide_eq_true h)

theorem distribution_perm_tally (ss : List Sighting) :
    (distribution ss).Perm (tally ss) :=
  List.mergeSort_perm (tally ss) entryLe

theorem jsRound_ediv (a b : Int) (hb : 0 < b) :
    jsRound a b = (2 * a + b) / (2 * b) :=
  Int.fdiv_eq_ediv _ (by omega)

theorem prettyTime_eq (now ts : Int) :
    prettyTime now ts =
      if max 1 (jsRound (now - ts) 60000) < 60 then
        toString (max 1 (jsRound (now - ts) 60000)) ++ "m ago"
      else if jsRound (max 1 (jsRound (now - ts) 60000)) 60 < 24 then
        toString (jsRound (max 1 (jsRound (now - ts) 60000)) 60) ++ "h ago"
      else
        toString (jsRound (jsRound (max 1 (jsRound (now - ts) 60000)) 60) 24)
          ++ "d ago" := rfl

/-- Claim C1, counterexample to the claim as stated.  Read with a possibly
empty capture sequence, the claim fails: in the input `@<>` the first (and
only) occurrence of the pattern `@<X>` with `X` free of `>` is the empty
capture, whose trim is the empty string, yet `extractLocation` returns the
sentinel `"Unspecified"` because the source regex `@<([^>]+)>` demands at
least one captured character. -/
theorem extractLocation_first_tag_counterexample :
    ¬ (∀ t pre X suf : List Char, isTagAt t pre X suf →
        (∀ pre2 X2 suf2, isTagAt t pre2 X2 suf2 → pre.length ≤ pre2.length) →
        extractLocation t = trim X) := by
  intro h
  have h0 := h "@<>".data [] [] [] ⟨by decide, by decide⟩
    (fun pre2 X2 suf2 _ => Nat.zero_le _)
  revert h0
  decide

/-- Claim C1 (amended: the captured sequence must be nonempty, matching the
`[^>]+` of the source regex): for every input that contains `@<X>` with `X` a
nonempty sequence of characters none of which is `>`, `extractLocation`
returns the first such `X` with leading and trailing whitespace removed. -/
theorem extractLocation_first_nonempty_tag
    (t pre X suf : List Char) (hocc : isTagAt t pre X suf) (hne : X ≠ [])
    (hmin : ∀ pre2 X2 suf2, isTagAt t pre2 X2 suf2 → X2 ≠ [] →
      pre.length ≤ pre2.length) :
    extractLocation t = trim X := by
  have hf := findTag_first hocc.1 hocc.2 hne hmin
  simp [extractLocation, hf]

theorem extractLocation_first_nonempty_tag_witness :
    extractLocation "@<Lab>".data = trim "Lab".data :=
  extractLocation_first_nonempty_tag "@<Lab>".data [] "Lab".data []
    ⟨by decide, by decide⟩ (by decide)
    (fun pre2 X2 suf2 _ _ => Nat.zero_le _)

/-- Claim C2: when every occurrence of the tag pattern in the input has an
empty capture, and in particular when the input contains no `@<...>`
substring at all, `extractLocation` returns the sentinel `"Unspecified"`. -/
theorem extractLocation_no_tag_sentinel
    (t : List Char) (h : ∀ pre X suf, isTagAt t pre X suf → X = []) :
    extractLocation t = unspecified := by
  cases hf : findTag t with
  | none => simp [extractLocation, hf]
  | some v =>
    obtain ⟨pre, suf, hocc, hne⟩ := findTag_sound hf
    exact absurd (h pre v suf hocc) hne

theorem extractLocation_no_tag_sentinel_witness :
    extractLocation "hi".data = unspecified :=
  extractLocation_no_tag_sentinel "hi".data (by
    intro pre X suf h
    exfalso
    have h1 : ('h' :: 'i' :: []) = pre ++ '@' :: '<' :: (X ++ '>' :: suf) := h.1
    have h2 := congrArg List.length h1
    simp [List.length_append] at h2
    omega)

/-- Claim C3: the counts of the distribution sum to the number of input
sightings, each location occurs at most once as a key, the keys are exactly
the distinct locations occurring in the input, and the empty input yields
the empty output. -/
theorem distribution_counts_total :
    (∀ ss : List Sighting,
      ((distribution ss).map Prod.snd).sum = ss.length
      ∧ ((distribution ss).map Prod.fst).Nodup
      ∧ (∀ loc, loc ∈ (distribution ss).map Prod.fst
          ↔ loc ∈ ss.map Sighting.location))
    ∧ distribution [] = [] := by
  constructor
  · intro ss
    have hperm := distribution_perm_tally ss
    refine ⟨?_, ?_, ?_⟩
    · rw [(hperm.map Prod.snd).sum_eq]
      simpa [tally] using tally_foldl_sum ss []
    · rw [(hperm.map Prod.fst).nodup_iff]
      simpa [tally] using tally_foldl_nodup ss [] (by simp)
    · intro loc
      rw [(hperm.map Prod.fst).mem_iff]
      simpa [tally] using tally_foldl_mem ss [] loc
  · exact List.Perm.eq_nil (distribution_perm_tally [])

/-- Claim C4: adjacent entries of the distribution are ordered with the
strictly larger count first, equal counts resolved by ascending lexicographic
order of the labels, and the aggregator is deterministic: equal inputs give
equal outputs. -/
theorem distribution_sorted_deterministic :
    (∀ ss : List Sighting, List.Chain' rankedLe (distribution ss))
    ∧ (∀ ss1 ss2 : List Sighting, ss1 = ss2 →
        distribution ss1 = distribution ss2) := by
  constructor
  · intro ss
    have hp := List.sorted_mergeSort entryLe_trans entryLe_total (tally ss)
    have hp2 : List.Pairwise rankedLe (distribution ss) := by
      have := hp.imp (fun h => entryLe_rankedLe h)
      simpa [distribution] using this
    exact hp2.chain'
  · intro ss1 ss2 h
    rw [h]

theorem distribution_sorted_deterministic_witness :
    distribution [] = distribution [] :=
  distribution_sorted_deterministic.2 [] [] rfl

/-- Claim C5: the submission handler validates in a fixed order with typed
failures: a description that is empty after trimming fails with
MissingDescription whatever the file slot holds (the image is not examined),
otherwise a missing file fails with MissingImage, otherwise a failing image
read fails with ImageReadError. -/
theorem handleSubmit_validation_order {F : Type}
    (readFile : F → Option (List Char)) (freshId : List Char) (now : Int)
    (d : List Char) (f : Option F) (ss : List Sighting) :
    (trim d = [] →
      (handleSubmit readFile freshId now ⟨d, f, ss⟩).2
        = some SubmissionError.MissingDescription)
    ∧ (trim d ≠ [] → f = none →
      (handleSubmit readFile freshId now ⟨d, f, ss⟩).2
        = some SubmissionError.MissingImage)
    ∧ (∀ f0, trim d ≠ [] → f = some f0 → readFile f0 = none →
      (handleSubmit readFile freshId now ⟨d, f, ss⟩).2
        = some SubmissionError.ImageReadError) := by
  refine ⟨?_, ?_, ?_⟩
  · intro h
    simp [handleSubmit, h]
  · intro h hf
    subst hf
    simp [handleSubmit, h]
  · intro f0 h hf hr
    subst hf
    simp [handleSubmit, h, hr]

theorem handleSubmit_validation_order_witness :
    ((handleSubmit (fun _ : Nat => some "u".data) "i".data 0
        (⟨" ".data, some 0, []⟩ : FormState Nat)).2
      = some SubmissionError.MissingDescription)
    ∧ ((handleSubmit (fun _ : Nat => some "u".data) "i".data 0
        (⟨"bug".data, none, []⟩ : FormState Nat)).2
      = some SubmissionError.MissingImage)
    ∧ ((handleSubmit (fun _ : Nat => none) "i".data 0
        (⟨"bug".data, some 0, []⟩ : FormState Nat)).2
      = some SubmissionError.ImageReadError) :=
  ⟨(handleSubmit_validation_order _ _ _ _ _ _).1 (by decide),
   (handleSubmit_validation_order _ _ _ _ _ _).2.1 (by decide) rfl,
   (handleSubmit_validation_order _ _ _ _ _ _).2.2 0 (by decide) rfl rfl⟩

/-- Claim C6: whenever the submission handler fails, the component state —
the description text, the selected file and the sighting collection — is
left unchanged. -/
theorem handleSubmit_error_preserves_state {F : Type}
    (readFile : F → Option (List Char)) (freshId : List Char) (now : Int)
    (st : FormState F) (e : SubmissionError)
    (h : (handleSubmit readFile freshId now st).2 = some e) :
    (handleSubmit readFile freshId now st).1 = st := by
  by_cases hd : trim st.description = []
  · simp [handleSubmit, hd]
  · cases hf : st.file with
    | none => simp [handleSubmit, hd, hf]
    | some f0 =>
      cases hr : readFile f0 with
      | none => simp [handleSubmit, hd, hf, hr]
      | some url =>
        exfalso
        simp [handleSubmit, hd, hf, hr] at h

theorem handleSubmit_error_preserves_state_witness :
    (handleSubmit (fun _ : Nat => some "u".data) "i".data 0
        (⟨[], none, []⟩ : FormState Nat)).1
      = (⟨[], none, []⟩ : FormState Nat) :=
  handleSubmit_error_preserves_state _ _ _ _
    SubmissionError.MissingDescription (by decide)

/-- Claim C7: a successful submission prepends the newly constructed sighting
to the collection: the new record is the head and the previous entries form
the tail unchanged and in their former order. -/
theorem handleSubmit_success_prepends {F : Type}
    (readFile : F → Option (List Char)) (freshId : List Char) (now : Int)
    (st : FormState F)
    (h : (handleSubmit readFile freshId now st).2 = none) :
    ∃ s : Sighting,
      ((handleSubmit readFile freshId now st).1).sightings
        = s :: st.sightings := by
  by_cases hd : trim st.description = []
  · simp [handleSubmit, hd] at h
  · cases hf : st.file with
    | none => simp [handleSubmit, hd, hf] at h
    | some f0 =>
      cases hr : readFile f0 with
      | none => simp [handleSubmit, hd, hf, hr] at h
      | some url =>
        exact ⟨{ id := freshId, description := st.description,
                 location := extractLocation st.description,
                 imageUrl := url, createdAt := now },
               by simp [handleSubmit, hd, hf, hr]⟩

theorem handleSubmit_success_prepends_witness :
    ∃ s : Sighting,
      ((handleSubmit (fun _ : Nat => some "u".data) "i".data 0
          (⟨"bug".data, some 0, []⟩ : FormState Nat)).1).sightings
        = s :: ([] : List Sighting) :=
  handleSubmit_success_prepends _ _ _ _ (by decide)

/-- Claim C8: for every instant at or before now, the formatter follows the
minute, hour and day buckets with rounding, the rendered number is at least
one in every branch, and 150 minutes renders as three hours (two and a half
hours rounds up). -/
theorem prettyTime_buckets :
    (∀ (now ts m : Int), ts ≤ now → m = max 1 (jsRound (now - ts) 60000) →
      1 ≤ m
      ∧ (m < 60 → prettyTime now ts = toString m ++ "m ago")
      ∧ (¬ m < 60 →
          1 ≤ jsRound m 60
          ∧ (jsRound m 60 < 24 →
              prettyTime now ts = toString (jsRound m 60) ++ "h ago")
          ∧ (¬ jsRound m 60 < 24 →
              1 ≤ jsRound (jsRound m 60) 24
              ∧ prettyTime now ts
                  = toString (jsRound (jsRound m 60) 24) ++ "d ago")))
    ∧ (∀ now : Int, prettyTime now (now - 150 * 60000) = "3h ago") := by
  constructor
  · intro now ts m hts hm
    have hpt : prettyTime now ts =
        if m < 60 then toString m ++ "m ago"
        else if jsRound m 60 < 24 then toString (jsRound m 60) ++ "h ago"
        else toString (jsRound (jsRound m 60) 24) ++ "d ago" := by
      rw [prettyTime_eq, ← hm]
    have h1m : 1 ≤ m := by
      rw [hm]
      exact le_max_left _ _
    refine ⟨h1m, ?_, ?_⟩
    · intro hlt
      rw [hpt, if_pos hlt]
    · intro hge
      have hm60 : 60 ≤ m := by omega
      have h1 : 1 ≤ jsRound m 60 := by
        rw [jsRound_ediv _ _ (by omega)]
        omega
      refine ⟨h1, ?_, ?_⟩
      · intro hlt24
        rw [hpt, if_neg hge, if_pos hlt24]
      · intro hge24
        have h24 : 24 ≤ jsRound m 60 := by omega
        have h2 : 1 ≤ jsRound (jsRound m 60) 24 := by
          rw [jsRound_ediv _ _ (by omega)]
          rw [jsRound_ediv _ _ (by omega)] at h24
          omega
        exact ⟨h2, by rw [hpt, if_neg hge, if_neg hge24]⟩
  · intro now
    have hd : now - (now - 150 * 60000) = (9000000 : Int) := by ring
    rw [prettyTime_eq, hd]
    decide

theorem prettyTime_buckets_witness :
    prettyTime 2700000 0 = "45m ago"
    ∧ prettyTime 0 (0 - 150 * 60000) = "3h ago" := by
  constructor
  · have h := (prettyTime_buckets.1 2700000 0
      (max 1 (jsRound (2700000 - 0) 60000)) (by decide) rfl).2.1 (by decide)
    rw [h]
    decide
  · exact prettyTime_buckets.2 0

/-- Claim C9 is right about the intent and wrong about the code: a
description whose only tag capture is whitespace, such as `bug @< >`, is
nonempty after trimming so it passes validation, the submission succeeds,
and the constructed sighting carries the empty string as its location —
neither the sentinel nor a nonempty label.  This theorem evaluates the
embedded code at that failing input. -/
theorem sighting_empty_location_bug :
    extractLocation "bug @< >".data = []
    ∧ (handleSubmit (fun _ : Nat => some "data:x".data) "id1".data 0
        (⟨"bug @< >".data, some 0, []⟩ : FormState Nat)).2 = none
    ∧ ((handleSubmit (fun _ : Nat => some "data:x".data) "id1".data 0
        (⟨"bug @< >".data, some 0, []⟩ : FormState Nat)).1).sightings.map
          Sighting.location = [[]] :=
  ⟨by decide, by decide, by decide⟩

/-- Claim C10: for every timestamp at or after now the elapsed time is not
positive, the rounded minute count is clamped to one, and the formatter
returns exactly the string for one minute. -/
theorem prettyTime_future_clamp (now ts : Int) (h : now ≤ ts) :
    prettyTime now ts = "1m ago" := by
  have hr : jsRound (now - ts) 60000 ≤ 0 := by
    rw [jsRound_ediv _ _ (by omega)]
    omega
  have hmx : max 1 (jsRound (now - ts) 60000) = 1 := max_eq_left (by omega)
  rw [prettyTime_eq, hmx]
  decide

theorem prettyTime_future_clamp_witness :
    prettyTime 0 60000 = "1m ago" :=
  prettyTime_future_clamp 0 60000 (by decide)

end Bugwatch
